import Mathlib

set_option linter.unusedVariables false

/-! Shallow embedding of the `arg_parse` crate (`src/lib.rs`): the `Arg` and
`App` declaration model and the `parse_internal` parsing algorithm, with the
`usize`/`i32` casts of the post-loop positional check made explicit.  The
mutable `completed` flags are modelled by explicit state passing: the parse
functions return the final `Arg` list alongside the `Result`. -/

/-- Output mapping: models `HashMap<String, String>`; `mapInsert` overwrites
any earlier binding of the same key, and `List.lookup` finds the newest. -/
abbrev ArgMap := List (String × String)

def mapInsert (m : ArgMap) (k v : String) : ArgMap :=
  (k, v) :: m.filter (fun p => p.1 != k)

/-- The process environment as queried by `env::var`: `some` means the
variable is present (with its content), `none` that it is absent. -/
abbrev EnvMap := String → Option String

structure Arg where
  name : String
  short : Option (List String)
  long : Option (List String)
  environment : Option String
  accepts_value : Bool
  required : Bool
  completed : Bool
  help : Option String
  default : Option String
  deriving DecidableEq, Repr

/-- Models `Arg::new`. -/
def Arg.new (name : String) : Arg :=
  { name := name, short := none, long := none, environment := none,
    accepts_value := false, required := false, completed := false,
    help := none, default := none }

/-- Models `Arg::add_short`: appends (does not replace). -/
def Arg.add_short (a : Arg) (s : String) : Arg :=
  match a.short with
  | some shorts => { a with short := some (shorts ++ [s]) }
  | none => { a with short := some [s] }

/-- Models `Arg::add_long`: appends (does not replace). -/
def Arg.add_long (a : Arg) (s : String) : Arg :=
  match a.long with
  | some longs => { a with long := some (longs ++ [s]) }
  | none => { a with long := some [s] }

/-- Models `Arg::accepts_value` (primed: the field has the source name). -/
def Arg.accepts_value' (a : Arg) : Arg := { a with accepts_value := true }

/-- Models `Arg::help` (primed: the field has the source name). -/
def Arg.help' (a : Arg) (h : String) : Arg := { a with help := some h }

/-- Models `Arg::set_default`: sets the default and forces `required = false`. -/
def Arg.set_default (a : Arg) (d : String) : Arg :=
  { a with default := some d, required := false }

/-- Models `Arg::environment` (primed: the field has the source name). -/
def Arg.environment' (a : Arg) (e : String) : Arg :=
  { a with environment := some e }

/-- Models `Arg::set_completed`. -/
def Arg.set_completed (a : Arg) : Arg := { a with completed := true }

/-- Models `Arg::is_completed`. -/
def Arg.is_completed (a : Arg) : Bool := a.completed

/-- Models `Arg::is_done`. -/
def Arg.is_done (a : Arg) : Bool := a.completed || !a.required

/-- Models `Arg::matches`: exact string comparison against any short or long alias. -/
def Arg.matches (a : Arg) (input : String) : Bool :=
  (match a.short with
   | some short => short.any (fun s => s == input)
   | none => false) ||
  (match a.long with
   | some long => long.any (fun s => s == input)
   | none => false)

/-- One public `Arg` builder call; `Arg` fields are private in the source, so
every `Arg` a caller can make is `Arg::new` followed by such calls. -/
inductive ArgOp where
  | add_short (s : String)
  | add_long (s : String)
  | accepts_value
  | help (s : String)
  | set_default (s : String)
  | environment (s : String)
  deriving DecidableEq, Repr

def applyArgOp (a : Arg) : ArgOp → Arg
  | .add_short s => a.add_short s
  | .add_long s => a.add_long s
  | .accepts_value => a.accepts_value'
  | .help s => a.help' s
  | .set_default s => a.set_default s
  | .environment s => a.environment' s

/-- An `Arg` assembled through the public builder API. -/
def buildArg (name : String) (ops : List ArgOp) : Arg :=
  ops.foldl applyArgOp (Arg.new name)

structure App where
  exec_name : String
  pretty_name : Option String
  version : Option String
  author : Option String
  about : Option String
  args : List Arg
  untagged_args_req : List String
  untagged_args_opt : List String
  manual_help_flag : Bool
  manual_version_flag : Bool
  deriving DecidableEq, Repr

/-- Models `App::new`. -/
def App.new (exec_name : String) : App :=
  { exec_name := exec_name, pretty_name := none, version := none,
    author := none, about := none, args := [], untagged_args_req := [],
    untagged_args_opt := [], manual_help_flag := false,
    manual_version_flag := false }

/-- Models `App::is_manual_help`: case-insensitive scan for `-help`/`--help`. -/
def App.is_manual_help (args : Option (List String)) : Bool :=
  match args with
  | some args => args.any (fun arg => arg.toLower == "-help" || arg.toLower == "--help")
  | none => false

/-- Models `App::is_manual_version`: case-insensitive scan for `-version`/`--version`. -/
def App.is_manual_version (args : Option (List String)) : Bool :=
  match args with
  | some args => args.any (fun arg => arg.toLower == "-version" || arg.toLower == "--version")
  | none => false

/-- Models `App::arg`: registers a declaration and raises the advisory flags. -/
def App.arg (app : App) (arg : Arg) : App :=
  let app1 :=
    if App.is_manual_help arg.short || App.is_manual_help arg.long then
      { app with manual_help_flag := true }
    else app
  let app2 :=
    if App.is_manual_version arg.short || App.is_manual_version arg.long then
      { app1 with manual_version_flag := true }
    else app1
  { app2 with args := app2.args ++ [arg] }

/-- Models `App::untagged_required_arg`. -/
def App.untagged_required_arg (app : App) (name : String) : App :=
  { app with untagged_args_req := app.untagged_args_req ++ [name] }

/-- Models `App::untagged_optional_arg`. -/
def App.untagged_optional_arg (app : App) (name : String) : App :=
  { app with untagged_args_opt := app.untagged_args_opt ++ [name] }

/-- Models `App::pretty_name` (primed: the field has the source name). -/
def App.pretty_name' (app : App) (s : String) : App := { app with pretty_name := some s }

/-- Models `App::version` (primed: the field has the source name). -/
def App.version' (app : App) (s : String) : App := { app with version := some s }

/-- Models `App::author` (primed: the field has the source name). -/
def App.author' (app : App) (s : String) : App := { app with author := some s }

/-- Models `App::about` (primed: the field has the source name). -/
def App.about' (app : App) (s : String) : App := { app with about := some s }

/-- Models `App::match_arg`: index of the first declared `Arg` matching the token
(the source returns a mutable reference; we update through the index). -/
def matchArgIdx (args : List Arg) (input : String) : Option Nat :=
  match args with
  | [] => none
  | arg :: rest =>
    if arg.matches input then some 0 else (matchArgIdx rest input).map (· + 1)

/-- Models `App::check_arg`: does any declared `Arg` match the token. -/
def check_arg (args : List Arg) (input : String) : Bool :=
  args.any (fun arg => arg.matches input)

/-- Models `App::clear_args`: reset every `completed` flag. -/
def clear_args (args : List Arg) : List Arg :=
  args.map (fun arg => { arg with completed := false })

/-- One public `App` builder call (`exec_name` is fixed by `App::new`). -/
inductive AppOp where
  | pretty_name (s : String)
  | version (s : String)
  | author (s : String)
  | about (s : String)
  | arg (name : String) (ops : List ArgOp)
  | untagged_required_arg (s : String)
  | untagged_optional_arg (s : String)
  deriving DecidableEq, Repr

def applyAppOp (app : App) : AppOp → App
  | .pretty_name s => app.pretty_name' s
  | .version s => app.version' s
  | .author s => app.author' s
  | .about s => app.about' s
  | .arg name ops => app.arg (buildArg name ops)
  | .untagged_required_arg s => app.untagged_required_arg s
  | .untagged_optional_arg s => app.untagged_optional_arg s

/-- An `App` assembled through the public API. -/
def buildApp (exec_name : String) (ops : List AppOp) : App :=
  ops.foldl applyAppOp (App.new exec_name)

/-- The `Error` enum of the crate. -/
inductive Error where
  | TooFewArguments
  | TooManyArguments (s : String)
  | MissingArgumentValue (s : String)
  | DuplicateArgument (s : String)
  | RequiredArgumentMissing (names : List String)
  deriving DecidableEq, Repr

def Error.isTooFew : Error → Bool
  | .TooFewArguments => true
  | _ => false

def Error.isReqMissing : Error → Bool
  | .RequiredArgumentMissing _ => true
  | _ => false

def resultIsTooFew (r : Except Error ArgMap) : Bool :=
  match r with
  | .error e => e.isTooFew
  | .ok _ => false

def resultIsReqMissing (r : Except Error ArgMap) : Bool :=
  match r with
  | .error e => e.isReqMissing
  | .ok _ => false

/-- Models `usize` subtraction with release (wrapping) semantics, on a 64-bit
target: `0 - 1` wraps to `2^64 - 1`. -/
def usizeWrapSub (a b : Nat) : Nat :=
  (a + (2 ^ 64 - b % 2 ^ 64)) % 2 ^ 64

/-- Models `usize` subtraction with debug (checked) semantics: `none` models the
overflow panic. -/
def usizeCheckedSub (a b : Nat) : Option Nat :=
  if b ≤ a then some (a - b) else none

/-- Models `as i32` applied to a `usize` value: truncate to 32 bits and reinterpret
in two's complement. -/
def i32OfUsize (n : Nat) : Int :=
  let m : Nat := n % 2 ^ 32
  if m < 2 ^ 31 then (m : Int) else (m : Int) - 2 ^ 32

/-- State threaded through the token-consumption loop of `parse_internal`.
The `i32` counters `untagged_req`/`untagged_opt` are modelled as `Nat`: they
start at 0 and each increment is guarded by `counter < len as i32 < 2^31`,
so they always stay in `i32` range. -/
structure LoopState where
  args : List Arg
  output : ArgMap
  untaggedReq : Nat
  untaggedOpt : Nat
  deriving DecidableEq, Repr

/-- Fallback `Arg` for `List.getD`; only read at indices `matchArgIdx`
guarantees to be in bounds. -/
def dfltArg : Arg := Arg.new ""

/-- The `while let Some(input) = args.next()` loop of `parse_internal`, with
one token of lookahead (`args.peek()`).  On error the `Arg` list at the
moment of the early `return Err` is carried along, mirroring the mutated
`self.args`. -/
def parseLoop (reqNames optNames : List String) :
    List String → LoopState → Except (Error × List Arg) LoopState
  | [], st => .ok st
  | input :: rest, st =>
    match matchArgIdx st.args input with
    | some i =>
      let a := st.args.getD i dfltArg
      if a.completed then
        .error (.DuplicateArgument a.name, st.args)
      else
        let args1 := st.args.set i a.set_completed
        if a.accepts_value then
          match rest with
          | value :: rest2 =>
            if check_arg args1 value then
              parseLoop reqNames optNames (value :: rest2) { st with args := args1 }
            else
              parseLoop reqNames optNames rest2
                { st with args := args1,
                          output := mapInsert st.output a.name value }
          | [] =>
            match a.default with
            | some d =>
              .ok { st with args := args1,
                            output := mapInsert st.output a.name d }
            | none => .error (.MissingArgumentValue a.name, args1)
        else
          parseLoop reqNames optNames rest
            { st with args := args1,
                      output := mapInsert st.output a.name "true" }
    | none =>
      if (st.untaggedReq : Int) < i32OfUsize reqNames.length then
        parseLoop reqNames optNames rest
          { st with output := mapInsert st.output (reqNames.getD st.untaggedReq "") input,
                    untaggedReq := st.untaggedReq + 1 }
      else if (st.untaggedOpt : Int) < i32OfUsize optNames.length then
        parseLoop reqNames optNames rest
          { st with output := mapInsert st.output (optNames.getD st.untaggedOpt "") input,
                    untaggedOpt := st.untaggedOpt + 1 }
      else
        .error (.TooManyArguments input, st.args)

/-- The environment-fallback pass of `parse_internal`: for every `Arg` not
completed whose `environment` is set and whose variable is present, bind the
default (or the `"true"` sentinel) and mark it completed. -/
def envPass (env : EnvMap) : List Arg → ArgMap → List Arg × ArgMap
  | [], output => ([], output)
  | arg :: rest, output =>
    match arg.completed, arg.environment with
    | false, some e =>
      if (env e).isSome then
        let output1 := mapInsert output arg.name (arg.default.getD "true")
        let r := envPass env rest output1
        (arg.set_completed :: r.1, r.2)
      else
        let r := envPass env rest output
        (arg :: r.1, r.2)
    | _, _ =>
      let r := envPass env rest output
      (arg :: r.1, r.2)

/-- The default-filling pass of `parse_internal`: for every `Arg` not
completed that has a default, bind the default and mark it completed. -/
def defaultPass : List Arg → ArgMap → List Arg × ArgMap
  | [], output => ([], output)
  | arg :: rest, output =>
    match arg.is_completed, arg.default with
    | false, some d =>
      let output1 := mapInsert output arg.name d
      let r := defaultPass rest output1
      (arg.set_completed :: r.1, r.2)
    | _, _ =>
      let r := defaultPass rest output
      (arg :: r.1, r.2)

/-- Models `App::parse_internal`, with the mutated `self.args` returned alongside
the `Result` (second component).  The post-loop check compares the `i32`
counter against `(untagged_args_req.len() - 1) as i32`, evaluated here with
wrapping (release) `usize` semantics; `usizeCheckedSub` models the debug
semantics of the same expression. -/
def parseInternalS (app : App) (env : EnvMap) (tokens : List String) :
    Except Error ArgMap × List Arg :=
  let output0 := mapInsert [] "path" (tokens.headD ".\\")
  match parseLoop app.untagged_args_req app.untagged_args_opt tokens.tail
      { args := app.args, output := output0, untaggedReq := 0, untaggedOpt := 0 } with
  | .error (e, argsE) => (.error e, argsE)
  | .ok st =>
    if (st.untaggedReq : Int) < i32OfUsize (usizeWrapSub app.untagged_args_req.length 1) then
      (.error .TooFewArguments, st.args)
    else
      let p := envPass env st.args st.output
      let missing := p.1.filter (fun arg => arg.required && !arg.is_done)
      if missing.isEmpty then
        let q := defaultPass p.1 p.2
        (.ok q.2, clear_args q.1)
      else
        (.error (.RequiredArgumentMissing (missing.map (fun arg => arg.name))), p.1)

/-- The `Result` component of `parse_internal`. -/
def parseInternal (app : App) (env : EnvMap) (tokens : List String) :
    Except Error ArgMap :=
  (parseInternalS app env tokens).1

/-- An environment in which every variable is absent. -/
def env0 : EnvMap := fun _ => none

/-! ## Concrete declarations used by the claim theorems -/

/-- An `App` declaring exactly one required positional name. -/
def app1 : App := { App.new "Test" with untagged_args_req := ["first_input"] }

/-- A boolean flag named `TestArg` with short alias `-a`. -/
def TestArgA : Arg := (Arg.new "TestArg").add_short "-a"

/-- A value-accepting flag named `HasValue` with short alias `-v`, no default. -/
def HasValueArg : Arg := ((Arg.new "HasValue").add_short "-v").accepts_value'

/-- A value-accepting flag named `HasDefault` with long alias `--default` and
default `"Default Value"`. -/
def HasDefaultArg : Arg :=
  (((Arg.new "HasDefault").add_long "--default").accepts_value').set_default "Default Value"

def app2a : App := { App.new "Test" with args := [HasValueArg, TestArgA] }

def app2b : App := { App.new "Test" with args := [HasDefaultArg, TestArgA] }

def app4 : App := { App.new "Test" with args := [HasValueArg] }

def app6 : App := { App.new "Test" with args := [(Arg.new "DupArg").add_short "-a"] }

def app7 : App := { App.new "Test" with args := [HasDefaultArg] }

def app9 : App :=
  { App.new "Test" with
    untagged_args_req := ["first_input"], untagged_args_opt := ["second_input"],
    args := [(Arg.new "TestArg").add_short "-vv"] }

def resultIsDuplicate (r : Except Error ArgMap) : Bool :=
  match r with
  | .error (.DuplicateArgument _) => true
  | _ => false

def argE : Arg := Arg.environment' (Arg.new "EnvArg") "MY_VAR"

def appE : App := { App.new "Test" with args := [argE] }

def envX : EnvMap := fun s => if s = "MY_VAR" then some "whatever" else none

def envY : EnvMap := fun s => if s = "MY_VAR" then some "other" else none

/-! ## Helper lemmas: output map -/

theorem lookup_filter_ne (m : ArgMap) (k k' : String) (h : k' ≠ k) :
    List.lookup k' (m.filter fun p => p.1 != k) = List.lookup k' m := by
  induction m with
  | nil => rfl
  | cons p t ih =>
    obtain ⟨a, b⟩ := p
    by_cases hp : a = k
    · subst hp
      rw [List.filter_cons_of_neg (by simp)]
      rw [ih, List.lookup_cons]
      rw [show (k' == a) = false from by simp [h]]
    · rw [List.filter_cons_of_pos (by simp [hp])]
      rw [List.lookup_cons, List.lookup_cons]
      cases hka : k' == a
      · simp only []
        exact ih
      · rfl

theorem lookup_mapInsert_self (m : ArgMap) (k v : String) :
    List.lookup k (mapInsert m k v) = some v := by
  simp [mapInsert, List.lookup_cons]

theorem lookup_mapInsert_ne (m : ArgMap) (k v k' : String) (h : k' ≠ k) :
    List.lookup k' (mapInsert m k v) = List.lookup k' m := by
  rw [mapInsert, List.lookup_cons]
  rw [show (k' == k) = false from by simp [h]]
  exact lookup_filter_ne m k k' h

/-! ## Helper lemmas: matchArgIdx and list indexing -/

theorem matchArgIdx_lt (args : List Arg) (input : String) (i : Nat)
    (h : matchArgIdx args input = some i) : i < args.length := by
  induction args generalizing i with
  | nil => simp [matchArgIdx] at h
  | cons a rest ih =>
    by_cases hm : a.matches input
    · simp [matchArgIdx, hm] at h
      simp only [List.length_cons]
      omega
    · simp [matchArgIdx, hm] at h
      obtain ⟨j, hj, hji⟩ := h
      have := ih j hj
      simp only [List.length_cons]
      omega

theorem matchArgIdx_matches (args : List Arg) (input : String) (i : Nat)
    (h : matchArgIdx args input = some i) :
    (args.getD i dfltArg).matches input = true := by
  induction args generalizing i with
  | nil => simp [matchArgIdx] at h
  | cons a rest ih =>
    by_cases hm : a.matches input
    · simp [matchArgIdx, hm] at h
      rw [← h, List.getD_cons_zero]
      exact hm
    · simp [matchArgIdx, hm] at h
      obtain ⟨j, hj, hji⟩ := h
      rw [← hji, List.getD_cons_succ]
      exact ih j hj

theorem matchArgIdx_check (args : List Arg) (input : String) (i : Nat)
    (h : matchArgIdx args input = some i) : check_arg args input = true := by
  have h1 := matchArgIdx_matches args input i h
  have h2 := matchArgIdx_lt args input i h
  rw [List.getD_eq_getElem args dfltArg h2] at h1
  exact List.any_eq_true.mpr ⟨args[i], List.getElem_mem h2, h1⟩

theorem getD_set_self (l : List Arg) (i : Nat) (x : Arg) (h : i < l.length) :
    (l.set i x).getD i dfltArg = x := by
  rw [List.getD_eq_getElem?_getD, List.getElem?_set_self h]
  rfl

theorem getD_set_ne (l : List Arg) (i j : Nat) (x : Arg) (h : i ≠ j) :
    (l.set i x).getD j dfltArg = l.getD j dfltArg := by
  rw [List.getD_eq_getElem?_getD, List.getElem?_set_ne h, ← List.getD_eq_getElem?_getD]





theorem parseLoop_error_shape (reqNames optNames : List String) :
    ∀ (n : Nat) (ts : List String), ts.length ≤ n →
    ∀ (st : LoopState) (e : Error) (argsE : List Arg),
      parseLoop reqNames optNames ts st = .error (e, argsE) →
      e.isTooFew = false ∧ e.isReqMissing = false := by
  intro n
  induction n with
  | zero =>
    intro ts hts st e argsE h
    have hnil : ts = [] := List.length_eq_zero.mp (Nat.le_zero.mp hts)
    subst hnil
    rw [parseLoop.eq_def] at h
    simp at h
  | succ n ih =>
    intro ts hts st e argsE h
    cases ts with
    | nil => rw [parseLoop.eq_def] at h; simp at h
    | cons input rest =>
      simp only [List.length_cons, Nat.succ_le_succ_iff] at hts
      cases rest with
      | nil =>
        rw [parseLoop.eq_def] at h
        cases hm : matchArgIdx st.args input with
        | some i =>
          simp only [hm] at h
          by_cases hc : (st.args.getD i dfltArg).completed = true
          · rw [if_pos hc] at h
            simp only [Except.error.injEq, Prod.mk.injEq] at h
            obtain ⟨he, ha⟩ := h
            subst he
            exact ⟨rfl, rfl⟩
          · rw [if_neg hc] at h
            by_cases hv : (st.args.getD i dfltArg).accepts_value = true
            · rw [if_pos hv] at h
              cases hd : (st.args.getD i dfltArg).default with
              | some d =>
                simp only [hd] at h
                simp at h
              | none =>
                simp only [hd] at h
                simp only [Except.error.injEq, Prod.mk.injEq] at h
                obtain ⟨he, ha⟩ := h
                subst he
                exact ⟨rfl, rfl⟩
            · rw [if_neg hv] at h
              exact ih [] (Nat.zero_le n) _ e argsE h
        | none =>
          simp only [hm] at h
          by_cases hr : (st.untaggedReq : Int) < i32OfUsize reqNames.length
          · rw [if_pos hr] at h
            exact ih [] (Nat.zero_le n) _ e argsE h
          · rw [if_neg hr] at h
            by_cases ho : (st.untaggedOpt : Int) < i32OfUsize optNames.length
            · rw [if_pos ho] at h
              exact ih [] (Nat.zero_le n) _ e argsE h
            · rw [if_neg ho] at h
              simp only [Except.error.injEq, Prod.mk.injEq] at h
              obtain ⟨he, ha⟩ := h
              subst he
              exact ⟨rfl, rfl⟩
      | cons value rest2 =>
        rw [parseLoop.eq_def] at h
        cases hm : matchArgIdx st.args input with
        | some i =>
          simp only [hm] at h
          by_cases hc : (st.args.getD i dfltArg).completed = true
          · rw [if_pos hc] at h
            simp only [Except.error.injEq, Prod.mk.injEq] at h
            obtain ⟨he, ha⟩ := h
            subst he
            exact ⟨rfl, rfl⟩
          · rw [if_neg hc] at h
            by_cases hv : (st.args.getD i dfltArg).accepts_value = true
            · rw [if_pos hv] at h
              by_cases hchk : check_arg (st.args.set i (st.args.getD i dfltArg).set_completed) value = true
              · rw [if_pos hchk] at h
                exact ih (value :: rest2) hts _ e argsE h
              · rw [if_neg hchk] at h
                exact ih rest2 (by simp only [List.length_cons] at hts; omega) _ e argsE h
            · rw [if_neg hv] at h
              exact ih (value :: rest2) hts _ e argsE h
        | none =>
          simp only [hm] at h
          by_cases hr : (st.untaggedReq : Int) < i32OfUsize reqNames.length
          · rw [if_pos hr] at h
            exact ih (value :: rest2) hts _ e argsE h
          · rw [if_neg hr] at h
            by_cases ho : (st.untaggedOpt : Int) < i32OfUsize optNames.length
            · rw [if_pos ho] at h
              exact ih (value :: rest2) hts _ e argsE h
            · rw [if_neg ho] at h
              simp only [Except.error.injEq, Prod.mk.injEq] at h
              obtain ⟨he, ha⟩ := h
              subst he
              exact ⟨rfl, rfl⟩

theorem set_completed_idem (a : Arg) : a.set_completed.set_completed = a.set_completed := rfl

theorem completedRel_trans {x y z : Arg} (h1 : x = y ∨ x = y.set_completed)
    (h2 : y = z ∨ y = z.set_completed) : x = z ∨ x = z.set_completed := by
  rcases h1 with rfl | rfl <;> rcases h2 with rfl | rfl
  · exact Or.inl rfl
  · exact Or.inr rfl
  · exact Or.inr rfl
  · exact Or.inr rfl

theorem set_completed_matches (a : Arg) (t : String) :
    a.set_completed.matches t = a.matches t := rfl


theorem parseLoop_args_ok (reqNames optNames : List String) :
    ∀ (n : Nat) (ts : List String), ts.length ≤ n →
    ∀ (st st' : LoopState), parseLoop reqNames optNames ts st = .ok st' →
      st'.args.length = st.args.length ∧
      ∀ j : Nat,
        (st'.args.getD j dfltArg = st.args.getD j dfltArg ∨
         st'.args.getD j dfltArg = (st.args.getD j dfltArg).set_completed) ∧
        ((∀ t ∈ ts, (st.args.getD j dfltArg).matches t = false) →
         st'.args.getD j dfltArg = st.args.getD j dfltArg) := by
  intro n
  induction n with
  | zero =>
    intro ts hts st st' h
    have hnil : ts = [] := List.length_eq_zero.mp (Nat.le_zero.mp hts)
    subst hnil
    rw [parseLoop.eq_def] at h
    simp only [Except.ok.injEq] at h
    subst h
    exact ⟨rfl, fun j => ⟨Or.inl rfl, fun _ => rfl⟩⟩
  | succ n ih =>
    intro ts hts st st' h
    cases ts with
    | nil =>
      rw [parseLoop.eq_def] at h
      simp only [Except.ok.injEq] at h
      subst h
      exact ⟨rfl, fun j => ⟨Or.inl rfl, fun _ => rfl⟩⟩
    | cons input rest =>
      simp only [List.length_cons, Nat.succ_le_succ_iff] at hts
      cases hm : matchArgIdx st.args input with
      | some i =>
        have hi : i < st.args.length := matchArgIdx_lt _ _ _ hm
        have hmi : (st.args.getD i dfltArg).matches input = true :=
          matchArgIdx_matches _ _ _ hm
        have hset : ∀ j : Nat,
            (st.args.set i (st.args.getD i dfltArg).set_completed).getD j dfltArg =
              st.args.getD j dfltArg ∨
            (st.args.set i (st.args.getD i dfltArg).set_completed).getD j dfltArg =
              (st.args.getD j dfltArg).set_completed := by
          intro j
          by_cases hij : i = j
          · subst hij
            exact Or.inr (getD_set_self _ _ _ hi)
          · exact Or.inl (getD_set_ne _ _ _ _ hij)
        have hsetne : ∀ j : Nat, i ≠ j →
            (st.args.set i (st.args.getD i dfltArg).set_completed).getD j dfltArg =
              st.args.getD j dfltArg := fun j hij => getD_set_ne _ _ _ _ hij
        have hlenset : (st.args.set i (st.args.getD i dfltArg).set_completed).length =
            st.args.length := List.length_set st.args _ _
        cases rest with
        | nil =>
          rw [parseLoop.eq_def] at h
          simp only [hm] at h
          by_cases hc : (st.args.getD i dfltArg).completed = true
          · rw [if_pos hc] at h
            simp at h
          · rw [if_neg hc] at h
            by_cases hv : (st.args.getD i dfltArg).accepts_value = true
            · rw [if_pos hv] at h
              cases hd : (st.args.getD i dfltArg).default with
              | some d =>
                simp only [hd] at h
                simp only [Except.ok.injEq] at h
                subst h
                refine ⟨hlenset, fun j => ⟨hset j, fun hnm => ?_⟩⟩
                by_cases hij : i = j
                · subst hij
                  exact Bool.noConfusion (hnm input (List.mem_cons_self _ _) ▸ hmi)
                · exact hsetne j hij
              | none =>
                simp only [hd] at h
                simp at h
            · rw [if_neg hv] at h
              obtain ⟨hlen, hpt⟩ := ih [] (Nat.zero_le n) _ st' h
              refine ⟨by rw [hlen]; exact hlenset, fun j => ⟨?_, fun hnm => ?_⟩⟩
              · exact completedRel_trans (hpt j).1 (hset j)
              · by_cases hij : i = j
                · subst hij
                  exact Bool.noConfusion (hnm input (List.mem_cons_self _ _) ▸ hmi)
                · rw [(hpt j).2 (by intro t ht; cases ht), hsetne j hij]
        | cons value rest2 =>
          rw [parseLoop.eq_def] at h
          simp only [hm] at h
          by_cases hc : (st.args.getD i dfltArg).completed = true
          · rw [if_pos hc] at h
            simp at h
          · rw [if_neg hc] at h
            by_cases hv : (st.args.getD i dfltArg).accepts_value = true
            · rw [if_pos hv] at h
              by_cases hchk : check_arg (st.args.set i (st.args.getD i dfltArg).set_completed) value = true
              · rw [if_pos hchk] at h
                obtain ⟨hlen, hpt⟩ := ih (value :: rest2) hts _ st' h
                refine ⟨by rw [hlen]; exact hlenset, fun j => ⟨?_, fun hnm => ?_⟩⟩
                · exact completedRel_trans (hpt j).1 (hset j)
                · by_cases hij : i = j
                  · subst hij
                    exact Bool.noConfusion (hnm input (List.mem_cons_self _ _) ▸ hmi)
                  · have heq := hsetne j hij
                    have hnm2 : ∀ t ∈ value :: rest2,
                        ((st.args.set i (st.args.getD i dfltArg).set_completed).getD j dfltArg).matches t = false := by
                      intro t ht
                      rw [heq]
                      exact hnm t (List.mem_cons_of_mem _ ht)
                    rw [(hpt j).2 hnm2, heq]
              · rw [if_neg hchk] at h
                obtain ⟨hlen, hpt⟩ := ih rest2
                  (by simp only [List.length_cons] at hts; omega) _ st' h
                refine ⟨by rw [hlen]; exact hlenset, fun j => ⟨?_, fun hnm => ?_⟩⟩
                · exact completedRel_trans (hpt j).1 (hset j)
                · by_cases hij : i = j
                  · subst hij
                    exact Bool.noConfusion (hnm input (List.mem_cons_self _ _) ▸ hmi)
                  · have heq := hsetne j hij
                    have hnm2 : ∀ t ∈ rest2,
                        ((st.args.set i (st.args.getD i dfltArg).set_completed).getD j dfltArg).matches t = false := by
                      intro t ht
                      rw [heq]
                      exact hnm t (List.mem_cons_of_mem _ (List.mem_cons_of_mem _ ht))
                    rw [(hpt j).2 hnm2, heq]
            · rw [if_neg hv] at h
              obtain ⟨hlen, hpt⟩ := ih (value :: rest2) hts _ st' h
              refine ⟨by rw [hlen]; exact hlenset, fun j => ⟨?_, fun hnm => ?_⟩⟩
              · exact completedRel_trans (hpt j).1 (hset j)
              · by_cases hij : i = j
                · subst hij
                  exact Bool.noConfusion (hnm input (List.mem_cons_self _ _) ▸ hmi)
                · have heq := hsetne j hij
                  have hnm2 : ∀ t ∈ value :: rest2,
                      ((st.args.set i (st.args.getD i dfltArg).set_completed).getD j dfltArg).matches t = false := by
                    intro t ht
                    rw [heq]
                    exact hnm t (List.mem_cons_of_mem _ ht)
                  rw [(hpt j).2 hnm2, heq]
      | none =>
        rw [parseLoop.eq_def] at h
        simp only [hm] at h
        by_cases hr : (st.untaggedReq : Int) < i32OfUsize reqNames.length
        · rw [if_pos hr] at h
          obtain ⟨hlen, hpt⟩ := ih rest hts _ st' h
          exact ⟨hlen, fun j =>
            ⟨(hpt j).1, fun hnm => (hpt j).2 (fun t ht => hnm t (List.mem_cons_of_mem _ ht))⟩⟩
        · rw [if_neg hr] at h
          by_cases ho : (st.untaggedOpt : Int) < i32OfUsize optNames.length
          · rw [if_pos ho] at h
            obtain ⟨hlen, hpt⟩ := ih rest hts _ st' h
            exact ⟨hlen, fun j =>
              ⟨(hpt j).1, fun hnm => (hpt j).2 (fun t ht => hnm t (List.mem_cons_of_mem _ ht))⟩⟩
          · rw [if_neg ho] at h
            simp at h


theorem envPass_args_indep (env : EnvMap) :
    ∀ (args : List Arg) (out out' : ArgMap),
      (envPass env args out).1 = (envPass env args out').1 := by
  intro args
  induction args with
  | nil => intro out out'; rfl
  | cons a rest ih =>
    intro out out'
    cases hc : a.completed with
    | false =>
      cases he : a.environment with
      | none =>
        simp only [envPass, hc, he]
        exact congrArg _ (ih _ _)
      | some e =>
        by_cases hp : (env e).isSome
        · simp only [envPass, hc, he, hp, if_true]
          exact congrArg _ (ih _ _)
        · simp only [envPass, hc, he, if_neg hp]
          exact congrArg _ (ih _ _)
    | true =>
      cases he : a.environment with
      | none =>
        simp only [envPass, hc, he]
        exact congrArg _ (ih _ _)
      | some e =>
        simp only [envPass, hc, he]
        exact congrArg _ (ih _ _)

theorem envPass_length (env : EnvMap) :
    ∀ (args : List Arg) (out : ArgMap),
      (envPass env args out).1.length = args.length := by
  intro args
  induction args with
  | nil => intro out; rfl
  | cons a rest ih =>
    intro out
    cases hc : a.completed with
    | false =>
      cases he : a.environment with
      | none =>
        simp only [envPass, hc, he, List.length_cons]
        rw [ih]
      | some e =>
        by_cases hp : (env e).isSome
        · simp only [envPass, hc, he, hp, if_true, List.length_cons]
          rw [ih]
        · simp only [envPass, hc, he, if_neg hp, List.length_cons]
          rw [ih]
    | true =>
      cases he : a.environment with
      | none =>
        simp only [envPass, hc, he, List.length_cons]
        rw [ih]
      | some e =>
        simp only [envPass, hc, he, List.length_cons]
        rw [ih]

theorem envPass_getD_or (env : EnvMap) :
    ∀ (args : List Arg) (out : ArgMap) (j : Nat),
      (envPass env args out).1.getD j dfltArg = args.getD j dfltArg ∨
      (envPass env args out).1.getD j dfltArg = (args.getD j dfltArg).set_completed := by
  intro args
  induction args with
  | nil => intro out j; exact Or.inl rfl
  | cons a rest ih =>
    intro out j
    cases hc : a.completed with
    | false =>
      cases he : a.environment with
      | none =>
        simp only [envPass, hc, he]
        cases j with
        | zero => exact Or.inl rfl
        | succ j => simpa only [List.getD_cons_succ] using ih _ j
      | some e =>
        by_cases hp : (env e).isSome
        · simp only [envPass, hc, he, hp, if_true]
          cases j with
          | zero => exact Or.inr rfl
          | succ j => simpa only [List.getD_cons_succ] using ih _ j
        · simp only [envPass, hc, he, if_neg hp]
          cases j with
          | zero => exact Or.inl rfl
          | succ j => simpa only [List.getD_cons_succ] using ih _ j
    | true =>
      cases he : a.environment with
      | none =>
        simp only [envPass, hc, he]
        cases j with
        | zero => exact Or.inl rfl
        | succ j => simpa only [List.getD_cons_succ] using ih _ j
      | some e =>
        simp only [envPass, hc, he]
        cases j with
        | zero => exact Or.inl rfl
        | succ j => simpa only [List.getD_cons_succ] using ih _ j

theorem envPass_getD_absent (env : EnvMap) :
    ∀ (args : List Arg) (out : ArgMap) (j : Nat),
      (∀ e, (args.getD j dfltArg).environment = some e → env e = none) →
      (envPass env args out).1.getD j dfltArg = args.getD j dfltArg := by
  intro args
  induction args with
  | nil => intro out j _; rfl
  | cons a rest ih =>
    intro out j habs
    cases hc : a.completed with
    | false =>
      cases he : a.environment with
      | none =>
        simp only [envPass, hc, he]
        cases j with
        | zero => rfl
        | succ j =>
          simp only [List.getD_cons_succ]
          exact ih _ j (by simpa only [List.getD_cons_succ] using habs)
      | some e =>
        cases j with
        | zero =>
          have : env e = none := habs e (by simpa using he)
          have hp : (env e).isSome = false := by simp [this]
          simp only [envPass, hc, he, hp, if_false, Bool.false_eq_true]
          rfl
        | succ j =>
          by_cases hp : (env e).isSome
          · simp only [envPass, hc, he, hp, if_true, List.getD_cons_succ]
            exact ih _ j (by simpa only [List.getD_cons_succ] using habs)
          · simp only [envPass, hc, he, if_neg hp, List.getD_cons_succ]
            exact ih _ j (by simpa only [List.getD_cons_succ] using habs)
    | true =>
      cases he : a.environment with
      | none =>
        simp only [envPass, hc, he]
        cases j with
        | zero => rfl
        | succ j =>
          simp only [List.getD_cons_succ]
          exact ih _ j (by simpa only [List.getD_cons_succ] using habs)
      | some e =>
        simp only [envPass, hc, he]
        cases j with
        | zero => rfl
        | succ j =>
          simp only [List.getD_cons_succ]
          exact ih _ j (by simpa only [List.getD_cons_succ] using habs)

theorem envPass_getD_present (env : EnvMap) :
    ∀ (args : List Arg) (out : ArgMap) (j : Nat) (e : String),
      (args.getD j dfltArg).completed = false →
      (args.getD j dfltArg).environment = some e →
      (env e).isSome = true →
      (envPass env args out).1.getD j dfltArg = (args.getD j dfltArg).set_completed := by
  intro args
  induction args with
  | nil =>
    intro out j e hc he hp
    exact Option.noConfusion he
  | cons a rest ih =>
    intro out j e hcomp henv hp
    cases j with
    | zero =>
      simp only [List.getD_cons_zero] at hcomp henv
      simp only [envPass, hcomp, henv, hp, if_true]
      rfl
    | succ j =>
      simp only [List.getD_cons_succ] at hcomp henv ⊢
      cases hc : a.completed with
      | false =>
        cases he : a.environment with
        | none =>
          simp only [envPass, hc, he, List.getD_cons_succ]
          exact ih _ j e hcomp henv hp
        | some e2 =>
          by_cases hp2 : (env e2).isSome
          · simp only [envPass, hc, he, hp2, if_true, List.getD_cons_succ]
            exact ih _ j e hcomp henv hp
          · simp only [envPass, hc, he, if_neg hp2, List.getD_cons_succ]
            exact ih _ j e hcomp henv hp
      | true =>
        cases he : a.environment with
        | none =>
          simp only [envPass, hc, he, List.getD_cons_succ]
          exact ih _ j e hcomp henv hp
        | some e2 =>
          simp only [envPass, hc, he, List.getD_cons_succ]
          exact ih _ j e hcomp henv hp

theorem envPass_lookup_preserve (env : EnvMap) (k : String) :
    ∀ (args : List Arg) (out : ArgMap),
      (∀ a ∈ args, a.name ≠ k) →
      List.lookup k (envPass env args out).2 = List.lookup k out := by
  intro args
  induction args with
  | nil => intro out _; rfl
  | cons a rest ih =>
    intro out hk
    have hka : a.name ≠ k := hk a (List.mem_cons_self _ _)
    have hkr : ∀ b ∈ rest, b.name ≠ k := fun b hb => hk b (List.mem_cons_of_mem _ hb)
    cases hc : a.completed with
    | false =>
      cases he : a.environment with
      | none =>
        simp only [envPass, hc, he]
        exact ih _ hkr
      | some e =>
        by_cases hp : (env e).isSome
        · simp only [envPass, hc, he, hp, if_true]
          rw [ih _ hkr]
          exact lookup_mapInsert_ne _ _ _ _ (Ne.symm hka)
        · simp only [envPass, hc, he, if_neg hp]
          exact ih _ hkr
    | true =>
      cases he : a.environment with
      | none =>
        simp only [envPass, hc, he]
        exact ih _ hkr
      | some e =>
        simp only [envPass, hc, he]
        exact ih _ hkr

theorem getD_mem_of_lt (l : List Arg) (j : Nat) (h : j < l.length) :
    l.getD j dfltArg ∈ l := by
  rw [List.getD_eq_getElem l dfltArg h]
  exact List.getElem_mem h

theorem mem_index_of_mem (l : List Arg) (b : Arg) (hb : b ∈ l) :
    ∃ j, j < l.length ∧ l.getD j dfltArg = b := by
  obtain ⟨j, hj, hbj⟩ := List.mem_iff_getElem.mp hb
  exact ⟨j, hj, by rw [List.getD_eq_getElem l dfltArg hj]; exact hbj⟩

theorem envPass_lookup_present (env : EnvMap) :
    ∀ (args : List Arg) (out : ArgMap) (j : Nat) (e : String),
      (args.getD j dfltArg).completed = false →
      (args.getD j dfltArg).environment = some e →
      (env e).isSome = true →
      (∀ j2, j2 < args.length → j2 ≠ j →
        (args.getD j2 dfltArg).name ≠ (args.getD j dfltArg).name) →
      List.lookup (args.getD j dfltArg).name (envPass env args out).2 =
        some ((args.getD j dfltArg).default.getD "true") := by
  intro args
  induction args with
  | nil =>
    intro out j e hc he hp _
    exact Option.noConfusion he
  | cons a rest ih =>
    intro out j e hcomp henv hp hdist
    cases j with
    | zero =>
      simp only [List.getD_cons_zero] at hcomp henv ⊢
      simp only [envPass, hcomp, henv, hp, if_true]
      have hrest : ∀ b ∈ rest, b.name ≠ a.name := by
        intro b hb
        obtain ⟨j2, hj2, hbj⟩ := mem_index_of_mem rest b hb
        have := hdist (j2 + 1) (by simp only [List.length_cons]; omega) (by omega)
        simpa only [List.getD_cons_succ, List.getD_cons_zero, hbj] using this
      rw [envPass_lookup_preserve env a.name rest _ hrest]
      exact lookup_mapInsert_self _ _ _
    | succ j =>
      simp only [List.getD_cons_succ] at hcomp henv ⊢
      have hdist2 : ∀ j2, j2 < rest.length → j2 ≠ j →
          (rest.getD j2 dfltArg).name ≠ (rest.getD j dfltArg).name := by
        intro j2 hj2 hne
        have := hdist (j2 + 1) (by simp only [List.length_cons]; omega) (by omega)
        simpa only [List.getD_cons_succ] using this
      cases hc : a.completed with
      | false =>
        cases he : a.environment with
        | none =>
          simp only [envPass, hc, he]
          exact ih _ j e hcomp henv hp hdist2
        | some e2 =>
          by_cases hp2 : (env e2).isSome
          · simp only [envPass, hc, he, hp2, if_true]
            exact ih _ j e hcomp henv hp hdist2
          · simp only [envPass, hc, he, if_neg hp2]
            exact ih _ j e hcomp henv hp hdist2
      | true =>
        cases he : a.environment with
        | none =>
          simp only [envPass, hc, he]
          exact ih _ j e hcomp henv hp hdist2
        | some e2 =>
          simp only [envPass, hc, he]
          exact ih _ j e hcomp henv hp hdist2

theorem defaultPass_lookup_preserve (k : String) :
    ∀ (args : List Arg) (out : ArgMap),
      (∀ a ∈ args, a.name ≠ k) →
      List.lookup k (defaultPass args out).2 = List.lookup k out := by
  intro args
  induction args with
  | nil => intro out _; rfl
  | cons a rest ih =>
    intro out hk
    have hka : a.name ≠ k := hk a (List.mem_cons_self _ _)
    have hkr : ∀ b ∈ rest, b.name ≠ k := fun b hb => hk b (List.mem_cons_of_mem _ hb)
    cases hc : a.is_completed with
    | false =>
      cases hd : a.default with
      | none =>
        simp only [defaultPass, hc, hd]
        exact ih _ hkr
      | some d =>
        simp only [defaultPass, hc, hd]
        rw [ih _ hkr]
        exact lookup_mapInsert_ne _ _ _ _ (Ne.symm hka)
    | true =>
      cases hd : a.default with
      | none =>
        simp only [defaultPass, hc, hd]
        exact ih _ hkr
      | some d =>
        simp only [defaultPass, hc, hd]
        exact ih _ hkr

theorem defaultPass_binds (d : String) :
    ∀ (args : List Arg) (out : ArgMap) (j : Nat),
      (args.getD j dfltArg).is_completed = false →
      (args.getD j dfltArg).default = some d →
      (∀ j2, j2 < args.length → j2 ≠ j →
        (args.getD j2 dfltArg).name ≠ (args.getD j dfltArg).name) →
      List.lookup (args.getD j dfltArg).name (defaultPass args out).2 = some d := by
  intro args
  induction args with
  | nil =>
    intro out j _ hd _
    exact Option.noConfusion hd
  | cons a rest ih =>
    intro out j hcomp hdef hdist
    cases j with
    | zero =>
      simp only [List.getD_cons_zero] at hcomp hdef ⊢
      simp only [defaultPass, hcomp, hdef]
      have hrest : ∀ b ∈ rest, b.name ≠ a.name := by
        intro b hb
        obtain ⟨j2, hj2, hbj⟩ := mem_index_of_mem rest b hb
        have := hdist (j2 + 1) (by simp only [List.length_cons]; omega) (by omega)
        simpa only [List.getD_cons_succ, List.getD_cons_zero, hbj] using this
      rw [defaultPass_lookup_preserve a.name rest _ hrest]
      exact lookup_mapInsert_self _ _ _
    | succ j =>
      simp only [List.getD_cons_succ] at hcomp hdef ⊢
      have hdist2 : ∀ j2, j2 < rest.length → j2 ≠ j →
          (rest.getD j2 dfltArg).name ≠ (rest.getD j dfltArg).name := by
        intro j2 hj2 hne
        have := hdist (j2 + 1) (by simp only [List.length_cons]; omega) (by omega)
        simpa only [List.getD_cons_succ] using this
      cases hc : a.is_completed with
      | false =>
        cases hd : a.default with
        | none =>
          simp only [defaultPass, hc, hd]
          exact ih _ j hcomp hdef hdist2
        | some d2 =>
          simp only [defaultPass, hc, hd]
          exact ih _ j hcomp hdef hdist2
      | true =>
        cases hd : a.default with
        | none =>
          simp only [defaultPass, hc, hd]
          exact ih _ j hcomp hdef hdist2
        | some d2 =>
          simp only [defaultPass, hc, hd]
          exact ih _ j hcomp hdef hdist2

theorem envPass_presence_congr (env1 env2 : EnvMap)
    (hpres : ∀ s, (env1 s).isSome = (env2 s).isSome) :
    ∀ (args : List Arg) (out : ArgMap),
      envPass env1 args out = envPass env2 args out := by
  intro args
  induction args with
  | nil => intro out; rfl
  | cons a rest ih =>
    intro out
    cases hc : a.completed with
    | false =>
      cases he : a.environment with
      | none =>
        simp only [envPass, hc, he]
        rw [ih]
      | some e =>
        by_cases hp : (env1 e).isSome
        · have hp2 : (env2 e).isSome = true := by rw [← hpres]; exact hp
          simp only [envPass, hc, he, hp, hp2, if_true]
          rw [ih]
        · have hp2 : ¬(env2 e).isSome = true := by rw [← hpres]; exact hp
          simp only [envPass, hc, he, if_neg hp, if_neg hp2]
          rw [ih]
    | true =>
      cases he : a.environment with
      | none =>
        simp only [envPass, hc, he]
        rw [ih]
      | some e =>
        simp only [envPass, hc, he]
        rw [ih]


theorem applyArgOp_required_false (a : Arg) (op : ArgOp) (h : a.required = false) :
    (applyArgOp a op).required = false := by
  cases op with
  | add_short s =>
    simp only [applyArgOp, Arg.add_short]
    cases a.short <;> exact h
  | add_long s =>
    simp only [applyArgOp, Arg.add_long]
    cases a.long <;> exact h
  | accepts_value => exact h
  | help s => exact h
  | set_default s => rfl
  | environment s => exact h

theorem buildArg_required (name : String) (ops : List ArgOp) :
    (buildArg name ops).required = false := by
  have haux : ∀ (l : List ArgOp) (a : Arg), a.required = false →
      (l.foldl applyArgOp a).required = false := by
    intro l
    induction l with
    | nil => intro a h; exact h
    | cons op rest ih =>
      intro a h
      exact ih _ (applyArgOp_required_false a op h)
  exact haux ops (Arg.new name) rfl

theorem App.arg_args (app : App) (a : Arg) : (app.arg a).args = app.args ++ [a] := by
  simp only [App.arg]
  split_ifs <;> rfl

theorem buildApp_required (s : String) (ops : List AppOp) :
    ∀ a ∈ (buildApp s ops).args, a.required = false := by
  have haux : ∀ (l : List AppOp) (app : App), (∀ a ∈ app.args, a.required = false) →
      ∀ a ∈ (l.foldl applyAppOp app).args, a.required = false := by
    intro l
    induction l with
    | nil => intro app h; exact h
    | cons op rest ih =>
      intro app h
      apply ih
      cases op with
      | pretty_name t => exact h
      | version t => exact h
      | author t => exact h
      | about t => exact h
      | untagged_required_arg t => exact h
      | untagged_optional_arg t => exact h
      | arg name argops =>
        intro a ha
        simp only [applyAppOp] at ha
        rw [App.arg_args] at ha
        rcases List.mem_append.mp ha with hmem | hmem
        · exact h a hmem
        · rw [List.mem_singleton.mp hmem]
          exact buildArg_required name argops
  exact haux ops (App.new s) (by intro a ha; cases ha)

theorem parseLoop_preserves_required (reqNames optNames : List String)
    (ts : List String) (st st' : LoopState)
    (h : parseLoop reqNames optNames ts st = .ok st')
    (hreq : ∀ a ∈ st.args, a.required = false) :
    ∀ a ∈ st'.args, a.required = false := by
  obtain ⟨hlen, hpt⟩ := parseLoop_args_ok reqNames optNames ts.length ts le_rfl st st' h
  intro a ha
  obtain ⟨j, hj, hja⟩ := mem_index_of_mem st'.args a ha
  have hgd : (st.args.getD j dfltArg).required = false := by
    by_cases hjl : j < st.args.length
    · exact hreq _ (getD_mem_of_lt _ _ hjl)
    · rw [List.getD_eq_default _ _ (Nat.le_of_not_lt hjl)]
      rfl
  rcases (hpt j).1 with heq | heq
  · rw [← hja, heq]
    exact hgd
  · rw [← hja, heq]
    exact hgd

theorem envPass_preserves_required (env : EnvMap) (args : List Arg) (out : ArgMap)
    (hreq : ∀ a ∈ args, a.required = false) :
    ∀ a ∈ (envPass env args out).1, a.required = false := by
  intro a ha
  obtain ⟨j, hj, hja⟩ := mem_index_of_mem _ a ha
  have hgd : (args.getD j dfltArg).required = false := by
    by_cases hjl : j < args.length
    · exact hreq _ (getD_mem_of_lt _ _ hjl)
    · rw [List.getD_eq_default _ _ (Nat.le_of_not_lt hjl)]
      rfl
  rcases envPass_getD_or env args out j with heq | heq
  · rw [← hja, heq]
    exact hgd
  · rw [← hja, heq]
    exact hgd

theorem filter_missing_empty (args : List Arg)
    (h : ∀ a ∈ args, a.required = false) :
    (args.filter fun arg => arg.required && !arg.is_done) = [] := by
  rw [List.filter_eq_nil_iff]
  intro a ha
  simp [h a ha]

/-- C10: for every `Arg` produced by any sequence of public builder calls, a
set default implies `required = false`: `set_default` assigns
`required = false` as a side effect, and no builder operation performed after
it (nor any other) can make `required` true again, since `required` stays
false through every builder call (`buildArg_required`). -/
theorem c10_default_implies_not_required (name : String) (ops : List ArgOp)
    (h : (buildArg name ops).default.isSome = true) :
    (buildArg name ops).required = false :=
  buildArg_required name ops

/-- Witness for C10 at a builder sequence that sets a default. -/
theorem c10_witness :
    (buildArg "HasDefault" [ArgOp.set_default "d"]).default.isSome = true ∧
    (buildArg "HasDefault" [ArgOp.set_default "d"]).required = false :=
  ⟨rfl, c10_default_implies_not_required "HasDefault" [ArgOp.set_default "d"] rfl⟩

/-- C3: no public `Arg` builder operation ever sets `required` to true —
`Arg::new` starts it at false and `set_default` forces it to false — so for
every `App` assembled through the public API (`buildApp`), the
`required_missing` filter of `parse_internal` is empty and the
`RequiredArgumentMissing` error is never returned, for every token stream and
environment. -/
theorem c3_required_missing_unreachable (nm : String) (a : Arg) (d : String)
    (s : String) (ops : List AppOp) (env : EnvMap) (tokens : List String) :
    (Arg.new nm).required = false ∧ (a.set_default d).required = false ∧
    resultIsReqMissing (parseInternal (buildApp s ops) env tokens) = false := by
  refine ⟨rfl, rfl, ?_⟩
  unfold parseInternal parseInternalS
  cases hl : parseLoop (buildApp s ops).untagged_args_req (buildApp s ops).untagged_args_opt
      tokens.tail
      { args := (buildApp s ops).args, output := mapInsert [] "path" (tokens.headD ".\\"),
        untaggedReq := 0, untaggedOpt := 0 } with
  | error p =>
    obtain ⟨e, argsE⟩ := p
    simp only [hl]
    exact (parseLoop_error_shape _ _ tokens.tail.length tokens.tail le_rfl _ e argsE hl).2
  | ok st =>
    simp only [hl]
    by_cases htf : (st.untaggedReq : Int) <
        i32OfUsize (usizeWrapSub (buildApp s ops).untagged_args_req.length 1)
    · rw [if_pos htf]
      rfl
    · rw [if_neg htf]
      have hreq1 : ∀ x ∈ st.args, x.required = false :=
        parseLoop_preserves_required _ _ _ _ _ hl (fun x hx => buildApp_required s ops x hx)
      have hreq2 := envPass_preserves_required env st.args st.output hreq1
      rw [filter_missing_empty _ hreq2]
      simp only [List.isEmpty_nil, if_true]
      rfl

/-- C5: for an `App` with no declared required positional names, the
post-loop `TooFewArguments` check of `parse_internal` evaluates
`untagged_args_req.len() - 1` at zero, which underflows: under checked
(debug) `usize` arithmetic the subtraction has no result (a panic, modelled
by `usizeCheckedSub 0 1 = none`); under wrapping (release) arithmetic it
yields `usize::MAX = 2^64 - 1`, whose `as i32` cast is `-1`, making the
check `counter < -1` false for every counter value, so such a parse never
returns `TooFewArguments`. -/
theorem c5_underflow_check :
    usizeCheckedSub 0 1 = none ∧
    usizeWrapSub 0 1 = 2 ^ 64 - 1 ∧
    i32OfUsize (usizeWrapSub 0 1) = -1 ∧
    (∀ r : Nat, decide ((r : Int) < i32OfUsize (usizeWrapSub 0 1)) = false) ∧
    (∀ (app : App) (env : EnvMap) (tokens : List String),
      app.untagged_args_req = [] →
      resultIsTooFew (parseInternal app env tokens) = false) := by
  have hneg : i32OfUsize (usizeWrapSub 0 1) = -1 := by decide
  refine ⟨rfl, by decide, hneg, ?_, ?_⟩
  · intro r
    rw [hneg]
    simp only [decide_eq_false_iff_not]
    have := Int.natCast_nonneg r
    omega
  · intro app env tokens happ
    unfold parseInternal parseInternalS
    cases hl : parseLoop app.untagged_args_req app.untagged_args_opt tokens.tail
        { args := app.args, output := mapInsert [] "path" (tokens.headD ".\\"),
          untaggedReq := 0, untaggedOpt := 0 } with
    | error p =>
      obtain ⟨e, argsE⟩ := p
      simp only [hl]
      exact (parseLoop_error_shape _ _ tokens.tail.length tokens.tail le_rfl _ e argsE hl).1
    | ok st =>
      simp only [hl]
      have hcond : ¬ (st.untaggedReq : Int) <
          i32OfUsize (usizeWrapSub app.untagged_args_req.length 1) := by
        rw [happ]
        simp only [List.length_nil]
        rw [hneg]
        have := Int.natCast_nonneg st.untaggedReq
        omega
      rw [if_neg hcond]
      by_cases hmiss : (List.filter (fun arg => arg.required && !arg.is_done)
          (envPass env st.args st.output).1).isEmpty = true
      · rw [if_pos hmiss]
        rfl
      · rw [if_neg hmiss]
        rfl

/-- C4 amended: on the `Ok` path `parse_internal` runs `clear_args` just
before returning, so whenever it returns `Ok` every declared `Arg`'s
`completed` flag is false on exit (the claim's stronger form, covering the
five error returns as well, fails: see the counterexample). -/
theorem c4_ok_resets_completed (app : App) (env : EnvMap) (tokens : List String)
    (m : ArgMap) (h : (parseInternalS app env tokens).1 = .ok m) :
    ((parseInternalS app env tokens).2.all fun arg => !arg.completed) = true := by
  unfold parseInternalS at h ⊢
  cases hl : parseLoop app.untagged_args_req app.untagged_args_opt tokens.tail
      { args := app.args, output := mapInsert [] "path" (tokens.headD ".\\"),
        untaggedReq := 0, untaggedOpt := 0 } with
  | error p =>
    obtain ⟨e, argsE⟩ := p
    simp only [hl] at h
    exact absurd h (by simp)
  | ok st =>
    simp only [hl] at h ⊢
    by_cases htf : (st.untaggedReq : Int) <
        i32OfUsize (usizeWrapSub app.untagged_args_req.length 1)
    · rw [if_pos htf] at h
      exact absurd h (by simp)
    · rw [if_neg htf] at h ⊢
      by_cases hmiss : (List.filter (fun arg => arg.required && !arg.is_done)
          (envPass env st.args st.output).1).isEmpty = true
      · rw [if_pos hmiss]
        simp only [clear_args, List.all_eq_true]
        intro x hx
        obtain ⟨y, hy, rfl⟩ := List.mem_map.mp hx
        rfl
      · rw [if_neg hmiss] at h
        exact absurd h (by simp)

theorem parseLoop_dup_step (reqNames optNames : List String) (st : LoopState)
    (tok : String) (rest : List String) (i : Nat)
    (hm : matchArgIdx st.args tok = some i)
    (hc : (st.args.getD i dfltArg).completed = true) :
    parseLoop reqNames optNames (tok :: rest) st =
      .error (.DuplicateArgument (st.args.getD i dfltArg).name, st.args) := by
  rw [parseLoop.eq_def]
  simp only [hm]
  rw [if_pos hc]

theorem parseLoop_dup_append (reqNames optNames : List String) :
    ∀ (n : Nat) (pre : List String), pre.length ≤ n →
    ∀ (st0 st : LoopState) (tok : String) (rest : List String) (i : Nat),
      parseLoop reqNames optNames pre st0 = .ok st →
      matchArgIdx st.args tok = some i →
      (st.args.getD i dfltArg).completed = true →
      parseLoop reqNames optNames (pre ++ tok :: rest) st0 =
        .error (.DuplicateArgument (st.args.getD i dfltArg).name, st.args) := by
  intro n
  induction n with
  | zero =>
    intro pre hpre st0 st tok rest i h hm hc
    have hnil : pre = [] := List.length_eq_zero.mp (Nat.le_zero.mp hpre)
    subst hnil
    rw [parseLoop.eq_def] at h
    simp only [Except.ok.injEq] at h
    subst h
    simpa only [List.nil_append] using
      parseLoop_dup_step reqNames optNames st0 tok rest i hm hc
  | succ n ih =>
    intro pre hpre st0 st tok rest i h hm hc
    cases pre with
    | nil =>
      rw [parseLoop.eq_def] at h
      simp only [Except.ok.injEq] at h
      subst h
      simpa only [List.nil_append] using
        parseLoop_dup_step reqNames optNames st0 tok rest i hm hc
    | cons input pre1 =>
      simp only [List.length_cons, Nat.succ_le_succ_iff] at hpre
      rw [List.cons_append, parseLoop.eq_def]
      rw [parseLoop.eq_def] at h
      cases hm0 : matchArgIdx st0.args input with
      | some i0 =>
        simp only [hm0] at h ⊢
        by_cases hc0 : (st0.args.getD i0 dfltArg).completed = true
        · rw [if_pos hc0] at h
          exact absurd h (by simp)
        · rw [if_neg hc0] at h ⊢
          by_cases hv0 : (st0.args.getD i0 dfltArg).accepts_value = true
          · rw [if_pos hv0] at h ⊢
            cases pre1 with
            | nil =>
              cases hd0 : (st0.args.getD i0 dfltArg).default with
              | some d =>
                simp only [hd0] at h
                simp only [Except.ok.injEq] at h
                subst h
                simp only [List.nil_append]
                rw [if_pos (matchArgIdx_check _ tok i hm)]
                exact parseLoop_dup_step reqNames optNames _ tok rest i hm hc
              | none =>
                simp only [hd0] at h
                exact absurd h (by simp)
            | cons value pre2 =>
              dsimp only at h
              simp only [List.cons_append]
              by_cases hchk : check_arg
                  (st0.args.set i0 (st0.args.getD i0 dfltArg).set_completed) value = true
              · rw [if_pos hchk] at h ⊢
                simpa only [List.cons_append] using
                  ih (value :: pre2) hpre _ st tok rest i h hm hc
              · rw [if_neg hchk] at h ⊢
                exact ih pre2 (by simp only [List.length_cons] at hpre; omega)
                  _ st tok rest i h hm hc
          · rw [if_neg hv0] at h ⊢
            exact ih pre1 hpre _ st tok rest i h hm hc
      | none =>
        simp only [hm0] at h ⊢
        by_cases hr : (st0.untaggedReq : Int) < i32OfUsize reqNames.length
        · rw [if_pos hr] at h ⊢
          exact ih pre1 hpre _ st tok rest i h hm hc
        · rw [if_neg hr] at h ⊢
          by_cases ho : (st0.untaggedOpt : Int) < i32OfUsize optNames.length
          · rw [if_pos ho] at h ⊢
            exact ih pre1 hpre _ st tok rest i h hm hc
          · rw [if_neg ho] at h
            exact absurd h (by simp)

/-- C6 amended: whenever the token-consumption loop processes the tokens
before some token `tok` without error, leaving a state in which the first
declared `Arg` matching `tok` is already completed (in particular because an
earlier token matched it), `parse_internal` returns `DuplicateArgument` with
that `Arg`'s name, regardless of the remaining tokens.  The original claim's
"regardless of where in the stream the second matching token appears" fails
when a token between the two matches errors first: see the counterexample. -/
theorem c6_amended_duplicate (app : App) (env : EnvMap) (path : String)
    (pre : List String) (tok : String) (rest : List String) (st : LoopState) (i : Nat)
    (h : parseLoop app.untagged_args_req app.untagged_args_opt pre
        { args := app.args, output := mapInsert [] "path" path,
          untaggedReq := 0, untaggedOpt := 0 } = .ok st)
    (hm : matchArgIdx st.args tok = some i)
    (hc : (st.args.getD i dfltArg).completed = true) :
    parseInternal app env (path :: (pre ++ tok :: rest)) =
      .error (.DuplicateArgument (st.args.getD i dfltArg).name) := by
  unfold parseInternal parseInternalS
  have hdup := parseLoop_dup_append app.untagged_args_req app.untagged_args_opt
    pre.length pre le_rfl _ st tok rest i h hm hc
  simp only [List.headD_cons, List.tail_cons, hdup]

/-- Witness for C6's amended theorem: a stream that supplies `-a` twice
with nothing in between does produce `DuplicateArgument`. -/
theorem c6_witness :
    parseInternal app6 env0 ["prog", "-a", "-a"] = .error (.DuplicateArgument "DupArg") :=
  c6_amended_duplicate app6 env0 "prog" ["-a"] "-a" [] _ 0 rfl rfl rfl

theorem nodup_names_getD (args : List Arg) (hn : (args.map Arg.name).Nodup) :
    ∀ i j : Nat, i < args.length → j < args.length → i ≠ j →
      (args.getD i dfltArg).name ≠ (args.getD j dfltArg).name := by
  intro i j hi hj hij hcontra
  have hi2 : i < (args.map Arg.name).length := by simpa using hi
  have hj2 : j < (args.map Arg.name).length := by simpa using hj
  have hmap : (args.map Arg.name)[i] = (args.map Arg.name)[j] := by
    rw [List.getElem_map, List.getElem_map]
    rw [List.getD_eq_getElem _ _ hi, List.getD_eq_getElem _ _ hj] at hcontra
    exact hcontra
  exact hij (hn.getElem_inj_iff.mp hmap)

/-- C7: for every declared `Arg` with a default set, if no token in the
stream matches its aliases and its environment variable (if any) is absent,
then every successful parse binds the default string under the `Arg`'s name.
Names are assumed unique (the spec's stated data-model invariant) and
`completed` starts false, as it does for every `Arg` the builder can
produce. -/
theorem c7_default_bound (app : App) (env : EnvMap) (tokens : List String)
    (a : Arg) (d : String) (m : ArgMap)
    (ha : a ∈ app.args)
    (hcomp : a.completed = false)
    (hdef : a.default = some d)
    (htok : ∀ t ∈ tokens, a.matches t = false)
    (henv : ∀ e, a.environment = some e → env e = none)
    (hnodup : (app.args.map Arg.name).Nodup)
    (hok : parseInternal app env tokens = .ok m) :
    List.lookup a.name m = some d := by
  obtain ⟨j, hj, hja⟩ := mem_index_of_mem app.args a ha
  unfold parseInternal parseInternalS at hok
  cases hl : parseLoop app.untagged_args_req app.untagged_args_opt tokens.tail
      { args := app.args, output := mapInsert [] "path" (tokens.headD ".\\"),
        untaggedReq := 0, untaggedOpt := 0 } with
  | error p =>
    obtain ⟨e, argsE⟩ := p
    simp only [hl] at hok
    exact absurd hok (by simp)
  | ok st =>
    simp only [hl] at hok
    by_cases htf : (st.untaggedReq : Int) <
        i32OfUsize (usizeWrapSub app.untagged_args_req.length 1)
    · rw [if_pos htf] at hok
      exact absurd hok (by simp)
    · rw [if_neg htf] at hok
      by_cases hmiss : (List.filter (fun arg => arg.required && !arg.is_done)
          (envPass env st.args st.output).1).isEmpty = true
      · rw [if_pos hmiss] at hok
        simp only [Except.ok.injEq] at hok
        subst hok
        obtain ⟨hlen, hpt⟩ := parseLoop_args_ok app.untagged_args_req app.untagged_args_opt
          tokens.tail.length tokens.tail le_rfl _ st hl
        dsimp only at hlen hpt
        have hstj : st.args.getD j dfltArg = a := by
          have h2 := (hpt j).2
            (fun t ht => by rw [hja]; exact htok t (List.mem_of_mem_tail ht))
          rw [h2]
          exact hja
        have hp1j : (envPass env st.args st.output).1.getD j dfltArg = a := by
          have h3 := envPass_getD_absent env st.args st.output j (by rw [hstj]; exact henv)
          rw [h3]
          exact hstj
        have hp1len : (envPass env st.args st.output).1.length = app.args.length := by
          rw [envPass_length, hlen]
        have hname : ∀ j2 : Nat, ((envPass env st.args st.output).1.getD j2 dfltArg).name
            = (app.args.getD j2 dfltArg).name := by
          intro j2
          have h1 : (st.args.getD j2 dfltArg).name = (app.args.getD j2 dfltArg).name := by
            rcases (hpt j2).1 with heq | heq
            · rw [heq]
            · rw [heq]; rfl
          rcases envPass_getD_or env st.args st.output j2 with heq | heq
          · rw [heq, h1]
          · rw [heq]
            exact h1
        have hdist : ∀ j2, j2 < (envPass env st.args st.output).1.length → j2 ≠ j →
            ((envPass env st.args st.output).1.getD j2 dfltArg).name ≠
            ((envPass env st.args st.output).1.getD j dfltArg).name := by
          intro j2 hj2 hne
          rw [hname j2, hname j]
          rw [hp1len] at hj2
          exact nodup_names_getD app.args hnodup j2 j hj2 hj hne
        have hbind := defaultPass_binds d (envPass env st.args st.output).1
          (envPass env st.args st.output).2 j
          (by rw [hp1j]; exact hcomp)
          (by rw [hp1j]; exact hdef)
          hdist
        rw [hp1j] at hbind
        exact hbind
      · rw [if_neg hmiss] at hok
        exact absurd hok (by simp)

/-- C8: in the environment fallback pass, every declared `Arg` not yet
completed whose environment variable is present is marked completed and
bound, under its name, to its default string — or the `"true"` sentinel when
it has no default.  The variable's content is irrelevant and its value is
never bound: two environments with the same presence pattern produce
identical `parse_internal` results. -/
theorem c8_environment_fallback :
    (∀ (env : EnvMap) (args : List Arg) (out : ArgMap) (j : Nat) (e : String),
      (args.getD j dfltArg).completed = false →
      (args.getD j dfltArg).environment = some e →
      (env e).isSome = true →
      (∀ j2, j2 < args.length → j2 ≠ j →
        (args.getD j2 dfltArg).name ≠ (args.getD j dfltArg).name) →
      (envPass env args out).1.getD j dfltArg = (args.getD j dfltArg).set_completed ∧
      List.lookup (args.getD j dfltArg).name (envPass env args out).2 =
        some ((args.getD j dfltArg).default.getD "true")) ∧
    (∀ (env1 env2 : EnvMap) (app : App) (tokens : List String),
      (∀ s, (env1 s).isSome = (env2 s).isSome) →
      parseInternalS app env1 tokens = parseInternalS app env2 tokens) := by
  constructor
  · intro env args out j e hcomp henv hp hdist
    exact ⟨envPass_getD_present env args out j e hcomp henv hp,
           envPass_lookup_present env args out j e hcomp henv hp hdist⟩
  · intro env1 env2 app tokens hpres
    unfold parseInternalS
    simp only [envPass_presence_congr env1 env2 hpres]

/-- Witness for C8 at a concrete argument and pair of environments. -/
theorem c8_witness :
    ((envPass envX [argE] []).1.getD 0 dfltArg = argE.set_completed ∧
     List.lookup "EnvArg" (envPass envX [argE] []).2 = some "true") ∧
    parseInternalS appE envX ["p"] = parseInternalS appE envY ["p"] := by
  constructor
  · exact c8_environment_fallback.1 envX [argE] [] 0 "MY_VAR" rfl rfl rfl
      (by intro j2 hj2 hne; simp only [List.length_cons, List.length_nil] at hj2; omega)
  · exact c8_environment_fallback.2 envX envY appE ["p"]
      (by intro s; by_cases hs : s = "MY_VAR" <;> simp [envX, envY, hs])

/-- Witness for C7 at a concrete app with a defaulted flag. -/
theorem c7_witness :
    parseInternal app7 env0 ["prog"] =
      .ok [("HasDefault", "Default Value"), ("path", "prog")] ∧
    List.lookup "HasDefault" [("HasDefault", "Default Value"), ("path", "prog")] =
      some "Default Value" := by
  refine ⟨rfl, ?_⟩
  exact c7_default_bound app7 env0 ["prog"] HasDefaultArg "Default Value"
    [("HasDefault", "Default Value"), ("path", "prog")]
    (List.mem_cons_self _ _) rfl rfl (by decide)
    (fun e he => Option.noConfusion he) (by decide) rfl

/-- Witness for C4's amended theorem at a concrete successful parse. -/
theorem c4_witness :
    ((parseInternalS app9 env0 ["prog", "hello", "-vv"]).2.all fun arg => !arg.completed) = true :=
  c4_ok_resets_completed app9 env0 ["prog", "hello", "-vv"]
    [("TestArg", "true"), ("first_input", "hello"), ("path", "prog")] rfl

/-- Witness for C5 at a concrete app with no required positionals. -/
theorem c5_witness :
    app6.untagged_args_req = [] ∧
    resultIsTooFew (parseInternal app6 env0 ["prog", "-a", "x"]) = false ∧
    decide ((0 : Int) < i32OfUsize (usizeWrapSub 0 1)) = false :=
  ⟨rfl, c5_underflow_check.2.2.2.2 app6 env0 ["prog", "-a", "x"] rfl,
   c5_underflow_check.2.2.2.1 0⟩

/-! ## Claim theorems -/

/-- C1: the claim says that with one declared required positional name and a
stream containing only the executable path, `parse_internal` fails with
`TooFewArguments`.  The code instead compares the filled count against
`len - 1`, so it accepts the stream and returns `Ok` with only the `"path"`
binding: the required positional slot is silently left unfilled. -/
theorem c1_one_required_positional_not_rejected :
    parseInternal app1 env0 ["prog"] = .ok [("path", "prog")] ∧
    resultIsTooFew (parseInternal app1 env0 ["prog"]) = false :=
  ⟨rfl, rfl⟩

/-- C2: the claim says a value-accepting flag whose following token matches a
declared alias falls back to its default or fails with
`MissingArgumentValue`.  The code does neither: it marks the flag completed
and binds nothing.  With no default (`app2a`), `["prog", "-v", "-a"]`
succeeds with no `HasValue` key and no error; with a default (`app2b`),
`["prog", "--default", "-a"]` succeeds with no `HasDefault` key, the default
never being bound. -/
theorem c2_value_flag_before_flag_binds_nothing :
    parseInternal app2a env0 ["prog", "-v", "-a"] =
      .ok [("TestArg", "true"), ("path", "prog")] ∧
    List.lookup "HasValue" [("TestArg", "true"), ("path", "prog")] = none ∧
    parseInternal app2b env0 ["prog", "--default", "-a"] =
      .ok [("TestArg", "true"), ("path", "prog")] ∧
    List.lookup "HasDefault" [("TestArg", "true"), ("path", "prog")] = none :=
  ⟨rfl, rfl, rfl, rfl⟩

/-- C4 counterexample: the claim says every invocation of `parse_internal`,
also on the five error returns, leaves every `completed` flag false.  On the
`MissingArgumentValue` early return the flag set during the run is not
cleared: the returned `Arg` state still has a completed argument. -/
theorem c4_counterexample :
    (parseInternalS app4 env0 ["prog", "-v"]).1 =
      .error (.MissingArgumentValue "HasValue") ∧
    ((parseInternalS app4 env0 ["prog", "-v"]).2.any fun arg => arg.completed) = true :=
  ⟨rfl, rfl⟩

/-- C6 counterexample: the claim says two tokens matching the same `Arg`
always yield `DuplicateArgument`, regardless of where the second one appears.
With `app6` (one flag `-a`, no positional slots) and stream
`["prog", "-a", "x", "-a"]`, both `-a` tokens match `DupArg` and neither is
consumed as a value, yet the stray token `x` between them is rejected first:
the result is `TooManyArguments "x"`, not `DuplicateArgument`. -/
theorem c6_counterexample :
    parseInternal app6 env0 ["prog", "-a", "x", "-a"] =
      .error (.TooManyArguments "x") ∧
    resultIsDuplicate (parseInternal app6 env0 ["prog", "-a", "x", "-a"]) = false :=
  ⟨rfl, rfl⟩

/-- C9: the concrete scenario of the spec: declarations
`{required positional "first_input"; optional positional "second_input";
flag "TestArg" short "-vv"}` on input `["prog", "hello", "-vv"]` produce
exactly `{"path" ↦ "prog", "first_input" ↦ "hello", "TestArg" ↦ "true"}`
and no `"second_input"` key. -/
theorem c9_concrete_scenario :
    parseInternal app9 env0 ["prog", "hello", "-vv"] =
      .ok [("TestArg", "true"), ("first_input", "hello"), ("path", "prog")] ∧
    List.lookup "second_input"
      [("TestArg", "true"), ("first_input", "hello"), ("path", "prog")] = none ∧
    List.lookup "path"
      [("TestArg", "true"), ("first_input", "hello"), ("path", "prog")] = some "prog" ∧
    List.lookup "first_input"
      [("TestArg", "true"), ("first_input", "hello"), ("path", "prog")] = some "hello" ∧
    List.lookup "TestArg"
      [("TestArg", "true"), ("first_input", "hello"), ("path", "prog")] = some "true" :=
  ⟨rfl, rfl, rfl, rfl, rfl⟩
